import Mathlib

/-
Verification of the index-and-search core of the menuvroom application
launcher.  The Rust source is embedded shallowly:

  * strings are `List Char` (`Str`); Rust `str::contains` / `starts_with` /
    `split` / `lines` are re-implemented below with the same semantics;
  * the interactive state (`AppState`) and its event handler
    (`window_event_step`) follow `src/app.rs`;
  * the catalog / cache layer (`Executable`, `get_binary_dirs`,
    `should_invalidate_cache`, cache encode / decode, directory-entry
    classification, desktop-file parsing) follows `src/executables.rs`;
  * filesystem facts (existence, mtimes, directory listings, file
    contents) are passed in as explicit data, since the functions under
    study only branch on them;
  * `usize` arithmetic is `Nat` with an explicit `% 2 ^ 64` where the
    source can wrap (release profile; a debug build would panic at the
    same spot, which the relevant theorem records);
  * a Rust `unwrap` on a value the code does not prove present is
    modelled with `Option` / `Except`, `none` / `.error` standing for the
    panic.
-/

/-- Rust strings, viewed as their character sequences. -/
abbrev Str := List Char

/-- Shorthand for writing concrete character-list literals. -/
def str (s : String) : Str := s.toList

/-! ### Generic string helpers mirroring the Rust standard library -/

/-- Rust `str::contains(needle)`: substring test, `true` for the empty
needle. -/
def strContains : Str → Str → Bool
  | [], needle => needle.isEmpty
  | h :: t, needle => needle.isPrefixOf (h :: t) || strContains t needle

/-- Rust `str::split(c)` for a one-character separator: the list of
(possibly empty) segments between occurrences of `c`. -/
def splitChar (c : Char) : Str → List Str
  | [] => [[]]
  | a :: rest =>
    if a = c then [] :: splitChar c rest
    else
      match splitChar c rest with
      | [] => [[a]]
      | h :: t => (a :: h) :: t

/-- Rust `str::split_once(c)`: split at the first occurrence of `c`. -/
def splitOnce (c : Char) : Str → Option (Str × Str)
  | [] => none
  | a :: rest =>
    if a = c then some ([], rest)
    else
      match splitOnce c rest with
      | none => none
      | some (p, q) => some (a :: p, q)

/-- Rust `str::split(" - ")`: split at each leftmost, non-overlapping
occurrence of the three-character separator `" - "`. -/
def splitDash : Str → List Str
  | [] => [[]]
  | ' ' :: '-' :: ' ' :: rest => [] :: splitDash rest
  | c :: rest =>
    match splitDash rest with
    | [] => [[c]]
    | h :: t => (c :: h) :: t

/-- Rust `BufRead::lines` applied to a whole buffer: segments between
newlines, without a trailing empty segment, each with a trailing
carriage return removed. -/
def stripCR (l : Str) : Str :=
  if l.getLast? = some '\r' then l.dropLast else l

/-- See `stripCR`; an empty buffer yields no lines. -/
def linesOf (s : Str) : List Str :=
  if s.isEmpty then []
  else
    let parts := splitChar '\n' s
    (if parts.getLast? = some [] then parts.dropLast else parts).map stripCR

/-- Rust `[String]::join("\n")`. -/
def joinNL : List Str → Str
  | [] => []
  | [l] => l
  | l :: l' :: rest => l ++ '\n' :: joinNL (l' :: rest)

/-- Rust `String` `Ord`: lexicographic comparison (on scalar values,
which for valid UTF-8 agrees with the byte order Rust compares). -/
def leStr : Str → Str → Bool
  | [], _ => true
  | _ :: _, [] => false
  | a :: as, b :: bs => if a < b then true else if b < a then false else leStr as bs

/-- Tail worker of `Vec::dedup`: `prev` is the last element retained. -/
def dedupAdjGo (eqb : α → α → Bool) (prev : α) : List α → List α
  | [] => []
  | b :: t => if eqb prev b then dedupAdjGo eqb prev t else b :: dedupAdjGo eqb b t

/-- Rust `Vec::dedup` (with the `Vec`'s element equality `eqb`): remove
all but the first of each run of consecutive equal elements. -/
def dedupAdjBy (eqb : α → α → Bool) : List α → List α
  | [] => []
  | a :: rest => a :: dedupAdjGo eqb a rest

/-! ### Executable (src/executables.rs lines 17-76) -/

/-- An entry of the catalog: `command` to invoke and, for desktop-derived
entries, a `display_name` (src/executables.rs lines 17-21). -/
structure Executable where
  command : Str
  display_name : Option Str
deriving DecidableEq

/-- Source `Executable::get_display_text` (src/executables.rs 66-71). -/
def Executable.get_display_text (e : Executable) : Str :=
  match e.display_name with
  | some d => d
  | none => e.command

/-- Source `Executable::to_string` (src/executables.rs 42-49): the cache
line for an entry — `D:<display_name> - <command>` for a desktop entry,
the bare command otherwise. -/
def Executable.to_string (e : Executable) : Str :=
  match e.display_name with
  | some d => str "D:" ++ d ++ str " - " ++ e.command
  | none => e.command

/-- Executable `Ord` is entirely by display text (src/executables.rs 29-33). -/
def execLe (a b : Executable) : Bool :=
  leStr a.get_display_text b.get_display_text

/-- Executable `PartialEq` is entirely by display text (src/executables.rs 23-27). -/
def execEq (a b : Executable) : Bool :=
  a.get_display_text == b.get_display_text

/-! ### Directory Resolver (src/executables.rs lines 78-102) -/

/-- Source `get_binary_dirs`.  `fsExists` stands for
`fs::exists(path).unwrap_or(false)`; `path_var` is the value of `PATH`
(the missing-`PATH` process exit is outside the function's value).  PATH
components are filtered for existence and non-ignoredness, the
configured `extra_directories` are appended as they are, and the result
is sorted and deduplicated. -/
def get_binary_dirs (fsExists : Str → Bool) (path_var : Str)
    (extra_directories ignored_directories : List Str) : List Str :=
  let paths := ((splitChar ':' path_var).filter fun p => fsExists p).filter
    fun p => !(ignored_directories.contains p)
  let paths := paths ++ extra_directories
  dedupAdjBy (fun a b => a == b) (paths.mergeSort leStr)

/-! ### Cache Store (src/executables.rs lines 104-226) -/

/-- Source `should_invalidate_cache` (src/executables.rs 104-154).  The
filesystem is summarised by whether the cache file exists, its mtime,
and for each resolved directory its mtime (`none` when the directory no
longer exists).  The side effect of creating a missing cache file is
I/O and not part of the returned value. -/
def should_invalidate_cache (cache_file_exists : Bool) (cache_mtime : Int)
    (dir_mtimes : List (Option Int)) : Bool :=
  if !cache_file_exists then true
  else
    dir_mtimes.any fun m =>
      match m with
      | none => false
      | some t => t > cache_mtime

/-- Decoding of one cache line, from the load branch of
`get_executables_for_config_and_paths` (src/executables.rs 198-222);
`none` is the logged-and-skipped corrupt line. -/
def decode_cache_line (entry : Str) : Option Executable :=
  if (str "D:").isPrefixOf entry then
    match (splitChar ':' entry).get? 1 with
    | none => none
    | some cached_info =>
      let executable_data := splitDash cached_info
      if executable_data.length = 2 then
        some ⟨executable_data.getD 1 [], some (executable_data.getD 0 [])⟩
      else none
  else if entry.contains ' ' then none
  else some ⟨entry, none⟩

/-- The cache file contents written after a rebuild
(src/executables.rs 181-188): one `to_string` line per entry, joined by
newlines. -/
def write_cache (executables : List Executable) : Str :=
  joinNL (executables.map Executable.to_string)

/-- The load branch of `get_executables_for_config_and_paths`
(src/executables.rs 195-223): decode every line, skipping corrupt
ones. -/
def load_cache (content : Str) : List Executable :=
  (linesOf content).filterMap decode_cache_line

/-- Value-level skeleton of `get_executables_for_config_and_paths`
(src/executables.rs 156-226): on a stale cache the scan results are
sorted and deduplicated (and written back, an I/O effect), on a fresh
cache the file contents are decoded. -/
def get_executables_for_config_and_paths (invalidate : Bool)
    (scanned : List Executable) (cache_content : Str) : List Executable :=
  if invalidate then dedupAdjBy execEq (scanned.mergeSort execLe)
  else load_cache cache_content

/-! ### Catalog Builder classification (src/executables.rs lines 228-325) -/

/-- The facts about one directory entry that
`get_executables_from_directory` branches on. -/
structure DirEntry where
  is_desktop_ext : Bool
  is_file : Bool
  is_symlink : Bool
  mode : Nat
  file_name : Str
deriving DecidableEq

/-- How the scan loop disposes of one directory entry. -/
inductive EntryClass where
  | skipped
  | desktopParsed
  | binary
deriving DecidableEq

/-- The branch structure of the scan loop body
(src/executables.rs 262-322): an entry is skipped early when it is not
a desktop file and binaries are excluded; a `.desktop` entry is parsed
as a desktop shortcut when those are included; otherwise the entry is a
binary exactly when it is a regular file or symlink whose mode has the
owner execute bit `0o100` set. -/
def classify_entry (include_binaries include_desktop_files : Bool)
    (e : DirEntry) : EntryClass :=
  if !e.is_desktop_ext && !include_binaries then .skipped
  else if e.is_desktop_ext && include_desktop_files then .desktopParsed
  else if (e.is_file || e.is_symlink) && (e.mode &&& 0o100 != 0) then .binary
  else .skipped

/-! ### Desktop-file parsing (src/executables.rs lines 270-300) -/

/-- ASCII reading of the `regex` crate's `\w` class used in `%\w`
field-code stripping. -/
def isWordChar (c : Char) : Bool := c.isAlphanum || c = '_'

/-- Source `Regex::new(r"%\w").replace_all(entry, "")`: delete each
leftmost two-character `%`-plus-word-character token. -/
def stripFieldCodes : Str → Str
  | [] => []
  | '%' :: c :: rest =>
    if isWordChar c then stripFieldCodes rest
    else '%' :: stripFieldCodes (c :: rest)
  | c :: rest => c :: stripFieldCodes rest

/-- The line loop of the desktop-file scan (src/executables.rs 274-286).
State is the `name` and `exec` options; a line starting with `Name`
takes `split("=").nth(1).unwrap()` and a line starting with `Exec`
takes `split_once("=").unwrap().1` (stripped of field codes) — either
`unwrap` panics (`.error ()`) when the line has no `=`.  The loop stops
once both values are present, so a later line never overwrites them. -/
def parse_desktop_lines : List Str → Option Str → Option Str →
    Except Unit (Option Str × Option Str)
  | [], name, exec => .ok (name, exec)
  | entry :: rest, name, exec =>
    let lineResult : Except Unit (Option Str × Option Str) :=
      if (str "Name").isPrefixOf entry then
        match (splitChar '=' entry).get? 1 with
        | none => .error ()
        | some v => .ok (some v, exec)
      else if (str "Exec").isPrefixOf entry then
        match splitOnce '=' entry with
        | none => .error ()
        | some (_, v) => .ok (name, some (stripFieldCodes v))
      else .ok (name, exec)
    match lineResult with
    | .error e => .error e
    | .ok (name, exec) =>
      if name.isSome && exec.isSome then .ok (name, exec)
      else parse_desktop_lines rest name exec

/-- Parsing one desktop file (src/executables.rs 270-300): `.error ()`
is a panic aborting the scan, `.ok none` the logged skip when `Name` or
`Exec` is missing, `.ok (some e)` a parsed entry
(`new_desktop_file(exec, name)`). -/
def parse_desktop_file (file_lines : List Str) : Except Unit (Option Executable) :=
  match parse_desktop_lines file_lines none none with
  | .error e => .error e
  | .ok (some n, some x) => .ok (some ⟨x, some n⟩)
  | .ok _ => .ok none

/-! ### Search Engine and Selection Controller (src/app.rs lines 17-101, 387-461) -/

/-- The searchable state of `AppState` (src/app.rs 17-25): `executables`
is the catalog of display texts, `matching_executable_indexes` the
ranked list of catalog indices. -/
structure AppState where
  search_entry : Str
  executables : List Str
  matching_executable_indexes : List Nat
  selected_index : Nat
  ctrl_pressed : Bool
deriving DecidableEq

/-- The loop of `update_matching_executable_indexes`
(src/app.rs 58-66), processing catalog entries in index order with the
vector built so far as `acc`: an entry equal to the query is inserted at
the front, and (independently) an entry containing the query is pushed
at the back. -/
def collect_matches (q : Str) : Nat → List Nat → List Str → List Nat
  | _, acc, [] => acc
  | i, acc, d :: ds =>
    collect_matches q (i + 1)
      ((if d = q then i :: acc else acc) ++ (if strContains d q then [i] else [])) ds

/-- Source `update_matching_executable_indexes` (src/app.rs 50-74):
reset the selection, clear the ranked list, and when the query is
non-empty refill it via `collect_matches`. -/
def update_matching_executable_indexes (st : AppState) : AppState :=
  let st := { st with selected_index := 0, matching_executable_indexes := [] }
  if st.search_entry.isEmpty then st
  else
    { st with matching_executable_indexes :=
        collect_matches st.search_entry 0 [] st.executables }

/-- Source `append_to_search` (src/app.rs 40-43). -/
def append_to_search (st : AppState) (s : Str) : AppState :=
  update_matching_executable_indexes { st with search_entry := st.search_entry ++ s }

/-- Source `search_backspace` (src/app.rs 45-48); `String::pop` drops
the last character. -/
def search_backspace (st : AppState) : AppState :=
  update_matching_executable_indexes { st with search_entry := st.search_entry.dropLast }

/-- The usize modulus. -/
def U64 : Nat := 2 ^ 64

/-- Source `increment_selected_index` (src/app.rs 76-80):
`(selected + 1).min(len - 1)` on `usize`.  When the ranked list is
empty `len - 1` underflows: a debug build panics here, a release build
wraps to `2 ^ 64 - 1`; the wrap is written out explicitly. -/
def increment_selected_index (st : AppState) : AppState :=
  let newIndex := min ((st.selected_index + 1) % U64)
    ((st.matching_executable_indexes.length + U64 - 1) % U64)
  { st with selected_index := newIndex }

/-- Source `decrement_selected_index` (src/app.rs 82-87). -/
def decrement_selected_index (st : AppState) : AppState :=
  if st.selected_index > 0 then { st with selected_index := st.selected_index - 1 }
  else st

/-- Source `get_selected_executable` (src/app.rs 89-94).  The inner
indexing `executables[matching_executable_indexes[selected]]` is `getD`;
every index the program ever stores in the ranked list is in range (see
`update_matching_spec`). -/
def get_selected_executable (st : AppState) : Option Str :=
  if st.selected_index ≥ st.matching_executable_indexes.length then none
  else
    some (st.executables.getD (st.matching_executable_indexes.getD st.selected_index 0) [])

/-- Source `get_executable` (src/app.rs 96-101): ranked-position lookup
guarded by the ranked list's length. -/
def get_executable (st : AppState) (index : Nat) : Option Str :=
  if index < st.matching_executable_indexes.length then
    some (st.executables.getD (st.matching_executable_indexes.getD index 0) [])
  else none

/-- The hotkey digit table of the `Key::Character` arm
(src/app.rs 424-435): digits `1`-`9` address ranked positions 0-8 and
`0` addresses position 9; anything else is no hotkey. -/
def digit_index (c : Str) : Option Nat :=
  if c = str "1" then some 0
  else if c = str "2" then some 1
  else if c = str "3" then some 2
  else if c = str "4" then some 3
  else if c = str "5" then some 4
  else if c = str "6" then some 5
  else if c = str "7" then some 6
  else if c = str "8" then some 7
  else if c = str "9" then some 8
  else if c = str "0" then some 9
  else none

/-- The input events the keyboard handler distinguishes
(src/app.rs 294-459, pressed keys plus the control-release and the
window-close request). -/
inductive KeyEvent where
  | ctrlDown
  | ctrlUp
  | enter
  | escape
  | arrowUp
  | arrowDown
  | backspace
  | space
  | character (c : Str)
  | closeRequested
deriving DecidableEq

/-- Outcome of one event: the session continues with a new state, or the
event loop exits, having handed `launched` (if any) to
`run_executable`. -/
inductive StepResult where
  | continueSession (st : AppState)
  | exitSession (launched : Option Str)
deriving DecidableEq

/-- The state-relevant behaviour of `window_event` (src/app.rs 294-459):
one event processed against one state.  Redraw requests and rendering
are pure output and omitted; `run_executable`'s path resolution and
spawning are external, so an exit records only which executable (if
any) was handed over. -/
def window_event_step (st : AppState) : KeyEvent → StepResult
  | .closeRequested => .exitSession none
  | .ctrlDown => .continueSession { st with ctrl_pressed := true }
  | .enter => .exitSession (get_selected_executable st)
  | .escape => .exitSession none
  | .arrowUp => .continueSession (decrement_selected_index st)
  | .arrowDown => .continueSession (increment_selected_index st)
  | .backspace => .continueSession (search_backspace st)
  | .space => .continueSession (append_to_search st (str " "))
  | .character c =>
    if st.ctrl_pressed then
      match digit_index c with
      | some i =>
        match get_executable st i with
        | some e => .exitSession (some e)
        | none => .continueSession st
      | none => .continueSession st
    else .continueSession (append_to_search st c)
  | .ctrlUp => .continueSession { st with ctrl_pressed := false }

/-! ### Derived specification-side definitions -/

/-- Indices (starting at `i`) of the entries of a catalog satisfying a
predicate, in catalog order. -/
def idxOfP (p : Str → Bool) : Nat → List Str → List Nat
  | _, [] => []
  | i, d :: ds => if p d then i :: idxOfP p (i + 1) ds else idxOfP p (i + 1) ds

/-- The entries a cache round-trip keeps: every desktop entry, and the
binary entries whose command has no space (the documented drop). -/
def keeps_cache_roundtrip (e : Executable) : Bool :=
  e.display_name.isSome || !(e.command.contains ' ')

/-- Sufficient conditions under which one entry's cache line decodes
back to the entry (or, for a spaced binary command, is dropped): the
fields contain no newline or carriage return; a binary command is
non-empty and does not itself look like a `D:` record; a desktop entry's
fields contain no `:` (the decoder truncates at the second colon), no
`" - "` (the decoder splits on every occurrence), and the display name
does not end in `" -"` (which would shift the split). -/
def cache_safe (e : Executable) : Bool :=
  match e.display_name with
  | none =>
    !e.command.isEmpty && !((str "D:").isPrefixOf e.command) &&
      !(e.command.contains '\n') && !(e.command.contains '\r')
  | some d =>
    !(d.contains ':') && !(e.command.contains ':') &&
      !(d.contains '\n') && !(e.command.contains '\n') &&
      !(d.contains '\r') && !(e.command.contains '\r') &&
      !(strContains d (str " - ")) && !(strContains e.command (str " - ")) &&
      !((str " -").isSuffixOf d)

/-! ### Basic lemmas about the string helpers -/

theorem isPrefixOf_refl (l : Str) : l.isPrefixOf l = true := by
  induction l with
  | nil => rfl
  | cons a t ih => simp [List.isPrefixOf, ih]

theorem strContains_refl (l : Str) : strContains l l = true := by
  cases l with
  | nil => rfl
  | cons a t => simp [strContains, isPrefixOf_refl]

theorem contains_iff_mem {l : Str} {c : Char} : l.contains c = true ↔ c ∈ l := by
  simp [List.contains, List.elem_iff]

theorem getLast?_mem_of_eq {α : Type} {l : List α} {c : α} (h : l.getLast? = some c) : c ∈ l := by
  induction l with
  | nil => simp at h
  | cons a t ih =>
    cases t with
    | nil =>
      simp [List.getLast?] at h
      simp [h]
    | cons b t' =>
      rw [List.getLast?_cons_cons] at h
      exact List.mem_cons_of_mem a (ih h)

theorem getLast?_ne_of_not_mem {α : Type} {l : List α} {c : α} (h : ∀ x ∈ l, x ≠ c) :
    l.getLast? ≠ some c :=
  fun hc => h c (getLast?_mem_of_eq hc) rfl

theorem idxOfP_length (p : Str → Bool) :
    ∀ (ds : List Str) (i : Nat), (idxOfP p i ds).length = (ds.filter p).length := by
  intro ds
  induction ds with
  | nil => intro i; rfl
  | cons d ds ih =>
    intro i
    by_cases h : p d = true <;> simp [idxOfP, List.filter_cons, h, ih]

theorem idxOfP_mem (p : Str → Bool) :
    ∀ (ds : List Str) (i j : Nat), j ∈ idxOfP p i ds →
      i ≤ j ∧ j - i < ds.length ∧ p (ds.getD (j - i) []) = true := by
  intro ds
  induction ds with
  | nil => intro i j h; simp [idxOfP] at h
  | cons d ds ih =>
    intro i j h
    by_cases hp : p d = true
    · simp only [idxOfP, hp, if_true, List.mem_cons] at h
      rcases h with h | h
      · subst h
        simp [hp]
      · rcases ih (i + 1) j h with ⟨h1, h2, h3⟩
        refine ⟨by omega, by simp; omega, ?_⟩
        have hji : j - i = (j - (i + 1)) + 1 := by omega
        rw [hji]
        simpa using h3
    · simp only [idxOfP, hp, if_false] at h
      rcases ih (i + 1) j h with ⟨h1, h2, h3⟩
      refine ⟨by omega, by simp; omega, ?_⟩
      have hji : j - i = (j - (i + 1)) + 1 := by omega
      rw [hji]
      simpa using h3

theorem collect_matches_eq (q : Str) :
    ∀ (ds : List Str) (i : Nat) (acc : List Nat),
      collect_matches q i acc ds =
        (idxOfP (fun d => d == q) i ds).reverse ++ acc ++
          idxOfP (fun d => strContains d q) i ds := by
  intro ds
  induction ds with
  | nil => intro i acc; simp [collect_matches, idxOfP]
  | cons d ds ih =>
    intro i acc
    rw [collect_matches, ih]
    by_cases he : d = q
    · have hc : strContains d q = true := by rw [he]; exact strContains_refl q
      have hb : (d == q) = true := beq_iff_eq.mpr he
      simp [idxOfP, he, hb, hc, strContains_refl, List.append_assoc]
    · have hb : (d == q) = false := by
        rw [Bool.eq_false_iff]
        intro hcontra
        exact he (beq_iff_eq.mp hcontra)
      by_cases hc : strContains d q = true
      · simp [idxOfP, he, hb, hc, List.append_assoc]
      · have hc' : strContains d q = false := by
          rw [Bool.eq_false_iff]; exact fun h => hc h
        simp [idxOfP, he, hb, hc', List.append_assoc]

theorem update_matching_spec (st : AppState) (h : st.search_entry ≠ []) :
    (update_matching_executable_indexes st).matching_executable_indexes =
      (idxOfP (fun d => d == st.search_entry) 0 st.executables).reverse ++
        idxOfP (fun d => strContains d st.search_entry) 0 st.executables := by
  have hne : st.search_entry.isEmpty = false := List.isEmpty_eq_false.mpr h
  simp [update_matching_executable_indexes, hne, collect_matches_eq]

/-- Claim C1 (amended): the ranked list produced for a non-empty query
has length equal to the number of catalog entries containing the query
plus the number of entries equal to it (exact matches are front-inserted
and also pushed); there is no fixed cap, in particular none at 8.  For
an empty query the ranked list is empty. -/
theorem C1_ranked_length (st : AppState) :
    (update_matching_executable_indexes st).matching_executable_indexes.length =
      if st.search_entry = [] then 0
      else (st.executables.filter fun d => d == st.search_entry).length +
        (st.executables.filter fun d => strContains d st.search_entry).length := by
  by_cases h : st.search_entry = []
  · simp [update_matching_executable_indexes, h]
  · rw [update_matching_spec st h, if_neg h]
    simp [idxOfP_length]

/-- Claim C1 counterexample: a catalog of nine entries all containing
the query `"a"` yields a ranked list of length nine, refuting the
claimed fixed cap of 8. -/
theorem C1_counterexample :
    ¬ ((update_matching_executable_indexes
        ⟨str "a", [str "a1", str "a2", str "a3", str "a4", str "a5", str "a6",
          str "a7", str "a8", str "a9"], [], 0, false⟩).matching_executable_indexes.length
      ≤ 8) := by
  decide

/-- Claim C2 (amended): for a non-empty query the ranked list is the
catalog indices whose display text equals the query (in reverse catalog
order, from the front-insertions) followed by all indices whose display
text contains the query in catalog order — so an exact match appears
twice, once at the front and once again in its catalog position; every
ranked index is in catalog range and its entry contains the query. -/
theorem C2_ranked_composition (st : AppState) (h : st.search_entry ≠ []) :
    (update_matching_executable_indexes st).matching_executable_indexes =
      (idxOfP (fun d => d == st.search_entry) 0 st.executables).reverse ++
        idxOfP (fun d => strContains d st.search_entry) 0 st.executables ∧
      ∀ j ∈ (update_matching_executable_indexes st).matching_executable_indexes,
        j < st.executables.length ∧
          strContains (st.executables.getD j []) st.search_entry = true := by
  refine ⟨update_matching_spec st h, ?_⟩
  intro j hj
  rw [update_matching_spec st h, List.mem_append, List.mem_reverse] at hj
  rcases hj with hj | hj
  · rcases idxOfP_mem _ _ 0 j hj with ⟨_, h2, h3⟩
    rw [Nat.sub_zero] at h2 h3
    refine ⟨h2, ?_⟩
    rw [beq_iff_eq.mp h3]
    exact strContains_refl _
  · rcases idxOfP_mem _ _ 0 j hj with ⟨_, h2, h3⟩
    rw [Nat.sub_zero] at h2 h3
    exact ⟨h2, h3⟩

/-- Claim C2 counterexample: with catalog `["a"]` and query `"a"` the
ranked list is `[0, 0]` — the exact match is duplicated — and is
therefore not the exact matches followed by the containment-only
matches. -/
theorem C2_counterexample :
    (update_matching_executable_indexes
        ⟨str "a", [str "a"], [], 0, false⟩).matching_executable_indexes ≠
      idxOfP (fun d => d == str "a") 0 [str "a"] ++
        idxOfP (fun d => strContains d (str "a") && !(d == str "a")) 0 [str "a"] := by
  decide

/-- Claim C2 witness: the ranked-list composition evaluated on the
catalog `["firefox", "firefox-esr", "vim"]` with query `"fire"`. -/
theorem C2_witness :
    (update_matching_executable_indexes
        ⟨str "fire", [str "firefox", str "firefox-esr", str "vim"], [], 0,
          false⟩).matching_executable_indexes =
      (idxOfP (fun d => d == str "fire") 0
          [str "firefox", str "firefox-esr", str "vim"]).reverse ++
        idxOfP (fun d => strContains d (str "fire")) 0
          [str "firefox", str "firefox-esr", str "vim"] :=
  (C2_ranked_composition
    ⟨str "fire", [str "firefox", str "firefox-esr", str "vim"], [], 0, false⟩
    (by decide)).1

/-- Claim C3 (amended): Enter always ends the session; when the
selection is inside the ranked list the selected entry is committed, and
with an empty ranked list nothing is launched (a cancel), rather than
the press being a no-op. -/
theorem C3_enter_always_exits (st : AppState) :
    (st.matching_executable_indexes = [] →
      window_event_step st .enter = .exitSession none) ∧
    (st.selected_index < st.matching_executable_indexes.length →
      window_event_step st .enter =
        .exitSession (some (st.executables.getD
          (st.matching_executable_indexes.getD st.selected_index 0) []))) := by
  constructor
  · intro h
    simp [window_event_step, get_selected_executable, h]
  · intro h
    have hn : ¬ st.selected_index ≥ st.matching_executable_indexes.length := by omega
    simp [window_event_step, get_selected_executable, hn]

/-- Claim C3 counterexample: with an empty ranked list, Enter exits the
session (launching nothing); the session does not continue in the same
state as the claim requires. -/
theorem C3_counterexample :
    window_event_step ⟨str "a", [], [], 0, false⟩ .enter = .exitSession none ∧
      window_event_step ⟨str "a", [], [], 0, false⟩ .enter ≠
        .continueSession ⟨str "a", [], [], 0, false⟩ := by
  exact ⟨rfl, by decide⟩

/-- Claim C3 witness: Enter on a state with ranked list `[0]` over the
catalog `["ab"]` commits `"ab"` and exits. -/
theorem C3_witness :
    window_event_step ⟨str "a", [str "ab"], [0], 0, false⟩ .enter =
      .exitSession (some (str "ab")) := by
  simpa using (C3_enter_always_exits ⟨str "a", [str "ab"], [0], 0, false⟩).2 (by decide)

/-- Claim C4, evaluation at the failing input: ArrowDown on a state
whose ranked list is empty is not a no-op — `(selected + 1).min(len - 1)`
underflows `len - 1`, and (release wrapping semantics) the selection
moves from 0 to 1, outside the empty range; a debug build panics at the
same subtraction. -/
theorem C4_empty_ranked_arrow_down :
    window_event_step ⟨str "q", [str "a"], [], 0, false⟩ .arrowDown =
      .continueSession ⟨str "q", [str "a"], [], 1, false⟩ ∧
      (⟨str "q", [str "a"], [], 1, false⟩ : AppState) ≠
        ⟨str "q", [str "a"], [], 0, false⟩ := by
  exact ⟨rfl, by decide⟩

/-- Claim C7: rebuild is required iff the cache file is absent or some
still-existing resolved directory is strictly newer than it; removed
directories never contribute (filtering them out does not change the
verdict); and on a fresh verdict the executables are taken from the
decoded cache file, not from a rescan. -/
theorem C7_staleness_rule (ce : Bool) (cm : Int) (dirs : List (Option Int))
    (scanned : List Executable) (cache_content : Str) :
    (should_invalidate_cache ce cm dirs = true ↔
      ce = false ∨ ∃ t : Int, some t ∈ dirs ∧ cm < t) ∧
      should_invalidate_cache ce cm (dirs.filter Option.isSome) =
        should_invalidate_cache ce cm dirs ∧
      (should_invalidate_cache ce cm dirs = false →
        get_executables_for_config_and_paths (should_invalidate_cache ce cm dirs)
          scanned cache_content = load_cache cache_content) := by
  refine ⟨?_, ?_, ?_⟩
  · cases ce with
    | false => simp [should_invalidate_cache]
    | true =>
      simp only [should_invalidate_cache, Bool.not_true, Bool.false_eq_true,
        if_false, List.any_eq_true]
      constructor
      · rintro ⟨m, hm, hp⟩
        cases m with
        | none => simp at hp
        | some t =>
          refine Or.inr ⟨t, hm, ?_⟩
          simpa [gt_iff_lt] using of_decide_eq_true hp
      · rintro (hfalse | ⟨t, ht, hlt⟩)
        · simp at hfalse
        · exact ⟨some t, ht, decide_eq_true (by simpa [gt_iff_lt] using hlt)⟩
  · cases ce with
    | false => simp [should_invalidate_cache]
    | true =>
      simp only [should_invalidate_cache, Bool.not_true, Bool.false_eq_true, if_false]
      induction dirs with
      | nil => rfl
      | cons m rest ih =>
        cases m with
        | none => simpa [List.filter_cons] using ih
        | some t => simp [List.filter_cons, ih]
  · intro h
    rw [h]
    simp [get_executables_for_config_and_paths]

/-- Claim C7 witness: a cache file with mtime 10 is stale against
directories with mtimes 5 and 11 (and one removed directory). -/
theorem C7_witness :
    should_invalidate_cache true 10 [none, some 5, some 11] = true :=
  (C7_staleness_rule true 10 [none, some 5, some 11] [] (str "")).1.mpr
    (Or.inr ⟨11, by decide, by decide⟩)

/-- Claim C8 counterexample: a regular (non-desktop) file with mode
`0o011` — group and other execute bits set, owner bit clear — is not
classified as a binary, although the claim's condition (any of the
three execute bits) holds for it. -/
theorem C8_counterexample :
    ¬ ((classify_entry true true ⟨false, true, false, 0o011, str "f"⟩ =
          EntryClass.binary) ↔
        (((⟨false, true, false, 0o011, str "f"⟩ : DirEntry).is_file = true ∨
            (⟨false, true, false, 0o011, str "f"⟩ : DirEntry).is_symlink = true) ∧
          (⟨false, true, false, 0o011, str "f"⟩ : DirEntry).mode &&& 0o111 ≠ 0)) := by
  decide

/-- Claim C8 (amended): with binary inclusion enabled, a directory entry
is classified as a binary iff it is not consumed by the desktop branch
(a `.desktop` extension with desktop inclusion enabled) and it is a
regular file or symlink whose owner execute bit `0o100` is set — the
group and other execute bits alone do not qualify. -/
theorem C8_binary_classification (include_desktop_files : Bool) (e : DirEntry) :
    classify_entry true include_desktop_files e = EntryClass.binary ↔
      ¬ (e.is_desktop_ext = true ∧ include_desktop_files = true) ∧
        (e.is_file = true ∨ e.is_symlink = true) ∧ e.mode &&& 0o100 ≠ 0 := by
  cases hd : e.is_desktop_ext <;> cases hi : include_desktop_files <;>
    cases hf : e.is_file <;> cases hs : e.is_symlink <;>
      by_cases hm : e.mode &&& 0o100 = 0 <;>
        simp [classify_entry, hd, hi, hf, hs, hm]

/-- Claim C9: the desktop-file parser panics — aborting the scan and the
process — on a file whose first line starts with `Name` but contains no
`=`, because of the `split("=").nth(1).unwrap()`. -/
theorem C9_malformed_name_line_aborts :
    parse_desktop_file [str "NameOnly", str "Exec=vim"] = Except.error () := rfl

/-- Claim C10: ranked-position lookup returns the addressed catalog
entry exactly when the position is inside the ranked list (`none`
otherwise), and a modifier-plus-digit hotkey addressing a position
outside the ranked list leaves the session state unchanged. -/
theorem C10_hotkey_lookup (st : AppState) (i : Nat) (d : Str) (idx : Nat) :
    get_executable st i =
      (st.matching_executable_indexes.get? i).map
        (fun ci => st.executables.getD ci []) ∧
      (st.ctrl_pressed = true → digit_index d = some idx →
        st.matching_executable_indexes.length ≤ idx →
        window_event_step st (.character d) = .continueSession st) := by
  constructor
  · by_cases h : i < st.matching_executable_indexes.length
    · rw [get_executable, if_pos h, List.get?_eq_get h, Option.map_some']
      have hg : st.matching_executable_indexes.getD i 0 =
          st.matching_executable_indexes.get ⟨i, h⟩ := by
        simp [List.getD_eq_getElem?_getD, List.getElem?_eq_getElem h,
          List.get_eq_getElem]
      rw [hg]
    · rw [get_executable, if_neg h, List.get?_eq_none.mpr (Nat.le_of_not_lt h)]
      rfl
  · intro hc hd hlen
    have h : ¬ idx < st.matching_executable_indexes.length := by omega
    simp [window_event_step, hc, hd, get_executable, h]

/-- Claim C10 witness: with one ranked entry, the hotkey Ctrl+5
addresses position 4, which does not exist, and the state is
unchanged. -/
theorem C10_witness :
    window_event_step ⟨str "a", [str "ab"], [0], 0, true⟩ (.character (str "5")) =
      .continueSession ⟨str "a", [str "ab"], [0], 0, true⟩ :=
  (C10_hotkey_lookup ⟨str "a", [str "ab"], [0], 0, true⟩ 4 (str "5") 4).2
    rfl (by decide) (by decide)

/-! ### Order and deduplication lemmas for the Directory Resolver -/

theorem leStr_total : ∀ a b : Str, leStr a b = true ∨ leStr b a = true := by
  intro a
  induction a with
  | nil => intro b; left; rfl
  | cons x xs ih =>
    intro b
    cases b with
    | nil => right; rfl
    | cons y ys =>
      rcases lt_trichotomy x y with h | h | h
      · left; simp [leStr, h]
      · subst h
        rcases ih ys with h2 | h2
        · left; simp [leStr, lt_irrefl, h2]
        · right; simp [leStr, lt_irrefl, h2]
      · right; simp [leStr, h]

theorem leStr_trans :
    ∀ a b c : Str, leStr a b = true → leStr b c = true → leStr a c = true := by
  intro a
  induction a with
  | nil => intro b c _ _; rfl
  | cons x xs ih =>
    intro b c hab hbc
    cases b with
    | nil => simp [leStr] at hab
    | cons y ys =>
      cases c with
      | nil => simp [leStr] at hbc
      | cons z zs =>
        by_cases hxy : x < y
        · by_cases hyz : y < z
          · simp [leStr, lt_trans hxy hyz]
          · by_cases hzy : z < y
            · simp [leStr, hyz, hzy] at hbc
            · have hyzeq : y = z := le_antisymm (not_lt.mp hzy) (not_lt.mp hyz)
              subst hyzeq
              simp [leStr, hxy]
        · by_cases hyx : y < x
          · simp [leStr, hxy, hyx] at hab
          · have hxyeq : x = y := le_antisymm (not_lt.mp hyx) (not_lt.mp hxy)
            subst hxyeq
            by_cases hxz : x < z
            · simp [leStr, hxz]
            · by_cases hzx : z < x
              · simp [leStr, hxz, hzx] at hbc
              · have hxzeq : x = z := le_antisymm (not_lt.mp hzx) (not_lt.mp hxz)
                subst hxzeq
                simp only [leStr, lt_irrefl, if_false] at hab hbc ⊢
                exact ih ys zs hab hbc

theorem leStr_antisymm :
    ∀ a b : Str, leStr a b = true → leStr b a = true → a = b := by
  intro a
  induction a with
  | nil =>
    intro b _ hba
    cases b with
    | nil => rfl
    | cons y ys => simp [leStr] at hba
  | cons x xs ih =>
    intro b hab hba
    cases b with
    | nil => simp [leStr] at hab
    | cons y ys =>
      by_cases hxy : x < y
      · simp [leStr, hxy, lt_asymm hxy] at hba
      · by_cases hyx : y < x
        · simp [leStr, hxy, hyx] at hab
        · have hx : x = y := le_antisymm (not_lt.mp hyx) (not_lt.mp hxy)
          subst hx
          simp only [leStr, lt_irrefl, if_false] at hab hba
          rw [ih ys hab hba]

theorem contains_iff_mem' {α : Type} [BEq α] [LawfulBEq α] {l : List α} {a : α} :
    l.contains a = true ↔ a ∈ l := by
  simp [List.contains, List.elem_iff]

theorem not_contains_iff {α : Type} [BEq α] [LawfulBEq α] {l : List α} {a : α} :
    (!l.contains a) = true ↔ a ∉ l := by
  constructor
  · intro h hmem
    rw [contains_iff_mem'.mpr hmem] at h
    simp at h
  · intro h
    cases hc : l.contains a with
    | false => rfl
    | true => exact absurd (contains_iff_mem'.mp hc) h

theorem dedupGo_chain (l : List Str) :
    ∀ p : Str, List.Pairwise (fun a b => leStr a b = true) (p :: l) →
      List.Chain' (fun a b => leStr a b = true ∧ a ≠ b)
        (p :: dedupAdjGo (fun a b => a == b) p l) := by
  induction l with
  | nil => intro p _; simp [dedupAdjGo]
  | cons b t ih =>
    intro p hp
    rw [List.pairwise_cons] at hp
    obtain ⟨h1, h2⟩ := hp
    by_cases hb : p = b
    · simp only [dedupAdjGo, beq_iff_eq, if_pos hb]
      apply ih p
      rw [List.pairwise_cons]
      rw [List.pairwise_cons] at h2
      exact ⟨fun x hx => h1 x (List.mem_cons_of_mem b hx), h2.2⟩
    · simp only [dedupAdjGo, beq_iff_eq, if_neg hb]
      rw [List.chain'_cons]
      exact ⟨⟨h1 b (List.mem_cons_self b t), hb⟩, ih b h2⟩

theorem dedup_pairwise (l : List Str)
    (h : List.Pairwise (fun a b => leStr a b = true) l) :
    List.Pairwise (fun a b => leStr a b = true ∧ a ≠ b)
      (dedupAdjBy (fun a b => a == b) l) := by
  haveI : IsTrans Str (fun a b : Str => leStr a b = true ∧ a ≠ b) := by
    constructor
    intro a b c hab hbc
    refine ⟨leStr_trans _ _ _ hab.1 hbc.1, ?_⟩
    intro hac
    subst hac
    exact hab.2 (leStr_antisymm _ _ hab.1 hbc.1)
  cases l with
  | nil => simp [dedupAdjBy]
  | cons a rest =>
    have hch := dedupGo_chain rest a h
    simp only [dedupAdjBy]
    exact List.chain'_iff_pairwise.mp hch

theorem mem_dedupGo (x : Str) :
    ∀ (l : List Str) (a : Str),
      (x ∈ a :: dedupAdjGo (fun a b => a == b) a l) ↔ x ∈ a :: l := by
  intro l
  induction l with
  | nil => intro a; simp [dedupAdjGo]
  | cons b t ih =>
    intro a
    by_cases hb : a = b
    · subst hb
      have hstep : dedupAdjGo (fun a b => a == b) a (a :: t) =
          dedupAdjGo (fun a b => a == b) a t := by
        simp [dedupAdjGo]
      rw [hstep, ih a]
      simp only [List.mem_cons]
      tauto
    · have hstep : dedupAdjGo (fun a b => a == b) a (b :: t) =
          b :: dedupAdjGo (fun a b => a == b) b t := by
        simp [dedupAdjGo, hb]
      rw [hstep]
      constructor
      · intro h
        rcases List.mem_cons.mp h with h | h
        · exact List.mem_cons.mpr (Or.inl h)
        · exact List.mem_cons.mpr (Or.inr ((ih b).mp h))
      · intro h
        rcases List.mem_cons.mp h with h | h
        · exact List.mem_cons.mpr (Or.inl h)
        · exact List.mem_cons.mpr (Or.inr ((ih b).mpr h))

theorem mem_dedupAdjBy (x : Str) (l : List Str) :
    x ∈ dedupAdjBy (fun a b => a == b) l ↔ x ∈ l := by
  cases l with
  | nil => simp [dedupAdjBy]
  | cons a rest => simpa [dedupAdjBy] using mem_dedupGo x rest a

/-- Claim C6 (amended): the Directory Resolver's output is sorted and
duplicate-free, and a directory is in it exactly when it is either a
PATH component that currently exists and is not ignored, or any entry of
`extra_directories` — the extra directories bypass the existence and
ignored filters. -/
theorem C6_resolver_output (fsExists : Str → Bool) (path_var : Str)
    (extra_directories ignored_directories : List Str) :
    List.Pairwise (fun a b => leStr a b = true ∧ a ≠ b)
        (get_binary_dirs fsExists path_var extra_directories ignored_directories) ∧
      ∀ d, (d ∈ get_binary_dirs fsExists path_var extra_directories
          ignored_directories ↔
        ((d ∈ splitChar ':' path_var ∧ fsExists d = true ∧
            d ∉ ignored_directories) ∨
          d ∈ extra_directories)) := by
  constructor
  · apply dedup_pairwise
    apply List.sorted_mergeSort leStr_trans
    intro a b
    rcases leStr_total a b with h | h <;> simp [h]
  · intro d
    rw [get_binary_dirs]
    rw [mem_dedupAdjBy, (List.mergeSort_perm _ leStr).mem_iff, List.mem_append,
      List.mem_filter, List.mem_filter]
    rw [not_contains_iff]
    tauto

/-- Claim C6 counterexample: an entry of `extra_directories` that does
not exist (under a filesystem where nothing exists) still appears in the
resolver output, refuting the claim that extra directories undergo the
same existence filter as PATH entries. -/
theorem C6_counterexample :
    ¬ (∀ d ∈ get_binary_dirs (fun _ => false) (str "") [str "x"] [],
        (fun (_ : Str) => false) d = true) := by
  intro h
  have hmem : str "x" ∈ get_binary_dirs (fun _ => false) (str "") [str "x"] [] := by
    rw [get_binary_dirs, mem_dedupAdjBy, (List.mergeSort_perm _ leStr).mem_iff,
      List.mem_append]
    exact Or.inr (List.mem_singleton.mpr rfl)
  simpa using h (str "x") hmem

/-! ### Splitting lemmas for the cache codec -/

theorem strD_eq : str "D:" = ['D', ':'] := rfl

theorem strSep_eq : str " - " = [' ', '-', ' '] := rfl

theorem strHalfSep_eq : str " -" = [' ', '-'] := rfl

theorem not_mem_of_contains_eq_false {α : Type} [BEq α] [LawfulBEq α]
    {l : List α} {a : α} (h : l.contains a = false) : a ∉ l := by
  intro hm
  rw [contains_iff_mem'.mpr hm] at h
  simp at h

theorem isPrefixOf_append {p q s : Str} (h : p.isPrefixOf q = true) :
    p.isPrefixOf (q ++ s) = true := by
  induction p generalizing q with
  | nil => cases q ++ s with
    | nil => rfl
    | cons b bs => rfl
  | cons a p ih =>
    cases q with
    | nil => simp [List.isPrefixOf] at h
    | cons b q' =>
      simp only [List.isPrefixOf, Bool.and_eq_true] at h
      simp only [List.cons_append, List.isPrefixOf, Bool.and_eq_true]
      exact ⟨h.1, ih h.2⟩

theorem isSuffixOf_cons {l t : Str} (c : Char) (h : l.isSuffixOf t = true) :
    l.isSuffixOf (c :: t) = true := by
  simp only [List.isSuffixOf, List.reverse_cons] at h ⊢
  exact isPrefixOf_append h

theorem splitChar_cons_ne {c a : Char} {rest : Str} (h : ¬ a = c) :
    splitChar c (a :: rest) =
      match splitChar c rest with
      | [] => [[a]]
      | hd :: tl => (a :: hd) :: tl := by
  simp only [splitChar]
  rw [if_neg h]

theorem splitChar_ne_nil (c : Char) (l : Str) : splitChar c l ≠ [] := by
  induction l with
  | nil => simp [splitChar]
  | cons a rest ih =>
    by_cases h : a = c
    · subst h; simp [splitChar]
    · rw [splitChar_cons_ne h]
      cases hs : splitChar c rest with
      | nil => exact absurd hs ih
      | cons hd tl => simp

theorem splitChar_not_mem {c : Char} {l : Str} (h : c ∉ l) : splitChar c l = [l] := by
  induction l with
  | nil => rfl
  | cons a rest ih =>
    simp only [List.mem_cons, not_or] at h
    have ha : ¬ a = c := fun he => h.1 he.symm
    rw [splitChar_cons_ne ha, ih h.2]

theorem splitChar_append_sep {c : Char} {l s : Str} (h : c ∉ l) :
    splitChar c (l ++ c :: s) = l :: splitChar c s := by
  induction l with
  | nil => simp [splitChar]
  | cons a l' ih =>
    simp only [List.mem_cons, not_or] at h
    have ha : ¬ a = c := fun he => h.1 he.symm
    rw [List.cons_append, splitChar_cons_ne ha, ih h.2]

theorem splitDash_cons_ne {c : Char} {rest : Str}
    (hne : ∀ rest₁ : Str, c = ' ' → rest = '-' :: ' ' :: rest₁ → False) :
    splitDash (c :: rest) =
      match splitDash rest with
      | [] => [[c]]
      | hd :: tl => (c :: hd) :: tl := by
  rw [splitDash.eq_def]
  split
  · rename_i heq
    exact absurd heq (by simp)
  · rename_i rest1 heq
    injection heq with h1 h2
    cases hne rest1 h1 h2
  · rename_i c1 rest1 heq
    injection heq with h1 h2
    rw [h1, h2]

theorem splitDash_ne_nil (l : Str) : splitDash l ≠ [] := by
  induction l using splitDash.induct with
  | case1 => simp [splitDash]
  | case2 rest ih => simp [splitDash]
  | case3 c rest hne hnil ih => exact absurd hnil ih
  | case4 c rest hne hd tl heq ih =>
    rw [splitDash_cons_ne hne, heq]
    simp

theorem splitDash_no_sep (l : Str) :
    strContains l (str " - ") = false → splitDash l = [l] := by
  induction l using splitDash.induct with
  | case1 => intro _; rfl
  | case2 rest ih =>
    intro h
    simp [strContains, strSep_eq, List.isPrefixOf] at h
  | case3 c rest hne hnil ih =>
    intro _
    exact absurd hnil (splitDash_ne_nil rest)
  | case4 c rest hne hd tl heq ih =>
    intro h
    have h2 : strContains rest (str " - ") = false := by
      simp only [strContains, Bool.or_eq_false_iff] at h
      exact h.2
    rw [splitDash_cons_ne hne, ih h2]

theorem splitDash_sep_append (name cmd : Str) :
    strContains name (str " - ") = false →
    (str " -").isSuffixOf name = false →
    splitDash (name ++ str " - " ++ cmd) = name :: splitDash cmd := by
  induction name with
  | nil =>
    intro _ _
    simp only [List.nil_append, strSep_eq, List.cons_append]
    rfl
  | cons c name' ih =>
    intro h1 h2
    have h1' : strContains name' (str " - ") = false := by
      simp only [strContains, Bool.or_eq_false_iff] at h1
      exact h1.2
    have h2' : (str " -").isSuffixOf name' = false := by
      cases hs : (str " -").isSuffixOf name' with
      | false => rfl
      | true => rw [isSuffixOf_cons c hs] at h2; cases h2
    have hne : ∀ rest₁ : Str, c = ' ' →
        name' ++ str " - " ++ cmd = '-' :: ' ' :: rest₁ → False := by
      intro rest₁ hc hr
      cases name' with
      | nil =>
        rw [strSep_eq] at hr
        simp at hr
      | cons d name'' =>
        cases name'' with
        | nil =>
          rw [strSep_eq] at hr
          simp at hr
          subst hc
          obtain ⟨hd2, _⟩ := hr
          subst hd2
          rw [strHalfSep_eq] at h2
          simp [List.isSuffixOf, List.isPrefixOf] at h2
        | cons e name''' =>
          rw [strSep_eq] at hr
          simp at hr
          obtain ⟨hd2, he2, _⟩ := hr
          subst hc
          subst hd2
          subst he2
          simp [strContains, strSep_eq, List.isPrefixOf] at h1
    rw [List.cons_append, List.cons_append, splitDash_cons_ne hne]
    rw [ih h1' h2']

theorem joinNL_ne_nil {ls : List Str} (hne : ls ≠ []) (h : ∀ l ∈ ls, l ≠ []) :
    joinNL ls ≠ [] := by
  cases ls with
  | nil => exact absurd rfl hne
  | cons l rest =>
    cases rest with
    | nil =>
      simp only [joinNL]
      exact h l (List.mem_cons_self _ _)
    | cons l' rest' =>
      simp only [joinNL]
      intro hcontra
      simp at hcontra

theorem joinNL_splitChar (ls : List Str) :
    ls ≠ [] → (∀ l ∈ ls, '\n' ∉ l) →
    splitChar '\n' (joinNL ls) = ls := by
  induction ls with
  | nil => intro hc _; exact absurd rfl hc
  | cons l rest ih =>
    intro _ h
    cases rest with
    | nil =>
      simp only [joinNL]
      exact splitChar_not_mem (h l (List.mem_cons_self _ _))
    | cons l' rest' =>
      simp only [joinNL]
      rw [splitChar_append_sep (h l (List.mem_cons_self _ _))]
      rw [ih (by simp) (fun x hx => h x (List.mem_cons_of_mem _ hx))]

theorem linesOf_joinNL (ls : List Str)
    (h : ∀ l ∈ ls, l ≠ [] ∧ '\n' ∉ l ∧ l.getLast? ≠ some '\r') :
    linesOf (joinNL ls) = ls := by
  rcases eq_or_ne ls [] with rfl | hne
  · rfl
  · have hnn : (joinNL ls).isEmpty = false :=
      List.isEmpty_eq_false.mpr (joinNL_ne_nil hne fun l hl => (h l hl).1)
    simp only [linesOf, hnn, Bool.false_eq_true, if_false]
    rw [joinNL_splitChar ls hne (fun l hl => (h l hl).2.1)]
    have hlast : ls.getLast? ≠ some [] := by
      intro hc
      exact (h _ (getLast?_mem_of_eq hc)).1 rfl
    rw [if_neg hlast]
    have hmap : ∀ l ∈ ls, stripCR l = id l := fun l hl => by
      rw [stripCR, if_neg (h l hl).2.2]
      rfl
    rw [List.map_congr_left hmap, List.map_id]

theorem decode_to_string (e : Executable) (hg : cache_safe e = true) :
    decode_cache_line e.to_string =
      if keeps_cache_roundtrip e then some e else none := by
  rcases e with ⟨cmd, dn⟩
  cases dn with
  | none =>
    simp only [cache_safe, Bool.and_eq_true, Bool.not_eq_true'] at hg
    obtain ⟨⟨⟨hg1, hg2⟩, hg3⟩, hg4⟩ := hg
    simp only [Executable.to_string, decode_cache_line]
    rw [if_neg (by simp [hg2])]
    by_cases hsp : cmd.contains ' ' = true
    · rw [if_pos hsp]
      have hm : ' ' ∈ cmd := contains_iff_mem'.mp hsp
      simp [keeps_cache_roundtrip, hsp, hm]
    · rw [if_neg hsp]
      have hsp' : cmd.contains ' ' = false := by
        revert hsp
        cases cmd.contains ' ' <;> simp
      have hm : ' ' ∉ cmd := not_mem_of_contains_eq_false hsp'
      simp [keeps_cache_roundtrip, hsp', hm]
  | some d =>
    simp only [cache_safe, Bool.and_eq_true, Bool.not_eq_true'] at hg
    obtain ⟨⟨⟨⟨⟨⟨⟨⟨hg1, hg2⟩, hg3⟩, hg4⟩, hg5⟩, hg6⟩, hg7⟩, hg8⟩, hg9⟩ := hg
    have hts : Executable.to_string ⟨cmd, some d⟩ =
        'D' :: ':' :: (d ++ str " - " ++ cmd) := by
      simp [Executable.to_string, strD_eq, List.append_assoc]
    rw [hts]
    simp only [decode_cache_line]
    rw [if_pos (by simp [strD_eq, List.isPrefixOf])]
    have hnc : ':' ∉ d ++ str " - " ++ cmd := by
      intro hmem
      rcases List.mem_append.mp hmem with hm | hm
      · rcases List.mem_append.mp hm with hm2 | hm2
        · exact not_mem_of_contains_eq_false hg1 hm2
        · rw [strSep_eq] at hm2
          simp at hm2
      · exact not_mem_of_contains_eq_false hg2 hm
    have hsplit : splitChar ':' ('D' :: ':' :: (d ++ str " - " ++ cmd)) =
        [['D'], d ++ str " - " ++ cmd] := by
      rw [splitChar_cons_ne (by decide)]
      rw [show splitChar ':' (':' :: (d ++ str " - " ++ cmd)) =
            [] :: splitChar ':' (d ++ str " - " ++ cmd) from by simp [splitChar]]
      rw [splitChar_not_mem hnc]
    rw [hsplit]
    have hdash : splitDash (d ++ str " - " ++ cmd) = [d, cmd] := by
      rw [splitDash_sep_append d cmd hg7 hg9, splitDash_no_sep cmd hg8]
    simp only [List.get?, hdash]
    simp [keeps_cache_roundtrip]

theorem to_string_line_ok (e : Executable) (hg : cache_safe e = true) :
    e.to_string ≠ [] ∧ '\n' ∉ e.to_string ∧ e.to_string.getLast? ≠ some '\r' := by
  rcases e with ⟨cmd, dn⟩
  cases dn with
  | none =>
    simp only [cache_safe, Bool.and_eq_true, Bool.not_eq_true'] at hg
    obtain ⟨⟨⟨hg1, hg2⟩, hg3⟩, hg4⟩ := hg
    refine ⟨List.isEmpty_eq_false.mp hg1, not_mem_of_contains_eq_false hg3, ?_⟩
    apply getLast?_ne_of_not_mem
    intro x hx hxr
    subst hxr
    exact not_mem_of_contains_eq_false hg4 hx
  | some d =>
    simp only [cache_safe, Bool.and_eq_true, Bool.not_eq_true'] at hg
    obtain ⟨⟨⟨⟨⟨⟨⟨⟨hg1, hg2⟩, hg3⟩, hg4⟩, hg5⟩, hg6⟩, hg7⟩, hg8⟩, hg9⟩ := hg
    have hts : Executable.to_string ⟨cmd, some d⟩ =
        'D' :: ':' :: (d ++ str " - " ++ cmd) := by
      simp [Executable.to_string, strD_eq, List.append_assoc]
    rw [hts]
    refine ⟨by simp, ?_, ?_⟩
    · intro hmem
      simp only [List.mem_cons, List.mem_append, strSep_eq] at hmem
      rcases hmem with h | h | (h | h) | h
      · exact absurd h (by decide)
      · exact absurd h (by decide)
      · exact not_mem_of_contains_eq_false hg3 h
      · simp at h
      · exact not_mem_of_contains_eq_false hg4 h
    · apply getLast?_ne_of_not_mem
      intro x hx hxr
      subst hxr
      simp only [List.mem_cons, List.mem_append, strSep_eq] at hx
      rcases hx with h | h | (h | h) | h
      · exact absurd h (by decide)
      · exact absurd h (by decide)
      · exact not_mem_of_contains_eq_false hg5 h
      · simp at h
      · exact not_mem_of_contains_eq_false hg6 h

theorem filterMap_decode_eq (cat : List Executable) :
    (∀ e ∈ cat, cache_safe e = true) →
    cat.filterMap (fun e => decode_cache_line e.to_string) =
      cat.filter keeps_cache_roundtrip := by
  induction cat with
  | nil => intro _; rfl
  | cons e cat ih =>
    intro hg
    have ih' := ih (fun x hx => hg x (List.mem_cons_of_mem _ hx))
    rw [List.filterMap_cons]
    simp only [decode_to_string e (hg e (List.mem_cons_self _ _))]
    by_cases hk : keeps_cache_roundtrip e = true
    · rw [if_pos hk, List.filter_cons, if_pos hk, ih']
    · rw [if_neg hk, List.filter_cons, if_neg hk, ih']

/-- Claim C5 (amended): encoding a Catalog and decoding the result
reproduces exactly the same entries, with binary entries whose command
contains a space dropped — provided the entries are `cache_safe`: no
field contains a newline or carriage return, binary commands are
non-empty and do not start with `D:`, and desktop fields contain no `:`,
no `" - "`, and no display name ending in `" -"`; outside those
conditions the `D:<name> - <command>` encoding is ambiguous and the
decoder drops or corrupts the entry. -/
theorem C5_cache_roundtrip (cat : List Executable)
    (hg : ∀ e ∈ cat, cache_safe e = true) :
    load_cache (write_cache cat) = cat.filter keeps_cache_roundtrip := by
  rw [load_cache, write_cache]
  rw [linesOf_joinNL]
  · rw [List.filterMap_map]
    exact filterMap_decode_eq cat hg
  · intro l hl
    obtain ⟨e, he, rfl⟩ := List.mem_map.mp hl
    exact to_string_line_ok e (hg e he)

/-- Claim C5 counterexample: the desktop entry with display name `"a"`
and command `"b - c"` is neither preserved nor merely dropped-as-spaced:
its cache line `D:a - b - c` splits into three fields and the decoder
skips it, so the round-trip loses a desktop entry, contrary to the
claim that only space-containing binary entries are dropped. -/
theorem C5_counterexample :
    load_cache (write_cache [⟨str "b - c", some (str "a")⟩]) ≠
      List.filter keeps_cache_roundtrip [⟨str "b - c", some (str "a")⟩] := by
  decide

/-- Claim C5 witness: a catalog of a desktop entry, a spaced binary
entry and a plain binary entry round-trips to exactly the filter's
result (the spaced binary is dropped). -/
theorem C5_witness :
    load_cache (write_cache
        [⟨str "gimp ", some (str "GIMP")⟩, ⟨str "a b", none⟩, ⟨str "vim", none⟩]) =
      List.filter keeps_cache_roundtrip
        [⟨str "gimp ", some (str "GIMP")⟩, ⟨str "a b", none⟩, ⟨str "vim", none⟩] :=
  C5_cache_roundtrip
    [⟨str "gimp ", some (str "GIMP")⟩, ⟨str "a b", none⟩, ⟨str "vim", none⟩]
    (by decide)
